import Mathlib

/-!
Verification of the chunking and retrieval core of the Chatbot-News-RAG
repository, as a shallow embedding in Lean 4.

Strings are modelled as `List Char`.  Python whitespace (`str.strip`, the
regex class `\s`) is the six ASCII whitespace characters.  Floating-point
scores returned by the opaque embedding / cross-encoder models are modelled
as rationals; only their ordering matters to the code under verification.

Embedded source files:
  * `news_crawler/prepare_data_rag.py` — `split_long_paragraph`,
    `chunk_text`, `process_language`;
  * `src/rag_news/reranker.py` — `rerank` (Python's `sorted` is a stable
    sort; it is modelled by a stable insertion sort, which computes the
    same list);
  * `src/rag_news/retriever.py` — `retrieve_news`;
  * `src/rag_news/ingest.py` — `batched`.
-/

/-- Python whitespace characters (the ASCII part of `\s` and `str.strip`). -/
def isSpace (c : Char) : Bool :=
  c == ' ' || c == '\t' || c == '\n' || c == '\r' || c == '\x0b' || c == '\x0c'

/-- Left strip: drop leading whitespace (Python `str.lstrip`). -/
def lstrip (s : List Char) : List Char := s.dropWhile isSpace

/-- Right strip: drop trailing whitespace (Python `str.rstrip`). -/
def rstrip (s : List Char) : List Char := (s.reverse.dropWhile isSpace).reverse

/-- Python `str.strip`: drop leading and trailing whitespace. -/
def strip (s : List Char) : List Char := rstrip (lstrip s)

/-- The non-whitespace character stream of a string. -/
def nonWs (s : List Char) : List Char := s.filter (fun c => !isSpace c)

/-- Python `s[-n:]` for `n > 0`: the last `n` characters (all of `s` when
`n ≥ |s|`). -/
def takeRight (n : Nat) (s : List Char) : List Char := s.drop (s.length - n)

/-- The two-newline paragraph joiner `"\n\n"`. -/
def nl2 : List Char := ['\n', '\n']

/-! ### `re.split(r'\n\s*\n', text)` — paragraph splitting

The regex matches a newline, a greedy run of whitespace, and a final
newline; backtracking makes a match consume the span from the first to the
last newline of a maximal whitespace run containing at least two newlines.
Whitespace of the run before its first newline stays with the preceding
piece, whitespace after its last newline stays with the following piece.
The scanner below processes one character at a time: `cur` is the piece
being built, `pend` is the trailing whitespace run not yet committed. -/

/-- Whitespace of a pending run before its first newline. -/
def wsBefore (pend : List Char) : List Char := pend.takeWhile (fun c => c ≠ '\n')

/-- Whitespace of a pending run after its last newline. -/
def wsAfter (pend : List Char) : List Char :=
  (pend.reverse.takeWhile (fun c => c ≠ '\n')).reverse

/-- Does the pending whitespace run contain a full `\n\s*\n` match? -/
def pendSplits (pend : List Char) : Bool := 2 ≤ pend.count '\n'

/-- Scanner for `re.split(r'\n\s*\n', ·)`. -/
def splitParasAux : List Char → List Char → List Char → List (List Char)
  | [], cur, pend =>
      if pendSplits pend then [cur ++ wsBefore pend, wsAfter pend]
      else [cur ++ pend]
  | c :: rest, cur, pend =>
      if isSpace c then splitParasAux rest cur (pend ++ [c])
      else if pendSplits pend then
        (cur ++ wsBefore pend) :: splitParasAux rest (wsAfter pend ++ [c]) []
      else splitParasAux rest (cur ++ pend ++ [c]) []

/-- `re.split(r'\n\s*\n', text)` from `chunk_text`. -/
def splitParas (s : List Char) : List (List Char) := splitParasAux s [] []

/-! ### `re.split(r'(?<=[\.!?])\s+', para)` — sentence splitting

A separator is a maximal whitespace run whose preceding character is one of
`.`, `!`, `?`.  The scanner tracks whether it is inside such a run. -/

/-- Sentence-final punctuation recognised by the splitting regex. -/
def isSentEnd (c : Char) : Bool := c == '.' || c == '!' || c == '?'

/-- Does the piece built so far end in sentence-final punctuation (the
lookbehind `(?<=[\.!?])`)? -/
def lastIsSentEnd (cur : List Char) : Bool :=
  match cur.getLast? with
  | some d => isSentEnd d
  | none => false

/-- Scanner for `re.split(r'(?<=[\.!?])\s+', ·)`; `inSep` is true while
consuming a separator run (whose preceding piece is `cur`). -/
def splitSentsAux : List Char → List Char → Bool → List (List Char)
  | [], cur, inSep => if inSep then [cur, []] else [cur]
  | c :: rest, cur, inSep =>
      if inSep then
        if isSpace c then splitSentsAux rest cur true
        else cur :: splitSentsAux rest [c] false
      else if isSpace c && lastIsSentEnd cur then splitSentsAux rest cur true
      else splitSentsAux rest (cur ++ [c]) false

/-- `re.split(r'(?<=[\.!?])\s+', para)` from `split_long_paragraph`. -/
def splitSents (s : List Char) : List (List Char) := splitSentsAux s [] false

/-! ### `split_long_paragraph` and `chunk_text` -/

/-- The hard-split loop `for i in range(0, len(sent), max_chars):
chunks.append(sent[i:i+max_chars].strip())`, with fuel for structural
recursion (any `fuel ≥ |s|` computes the loop for `m ≥ 1`). -/
def hardSplitF (m : Nat) : Nat → List Char → List (List Char)
  | _, [] => []
  | 0, _ :: _ => []
  | fuel + 1, c :: cs => strip ((c :: cs).take m) :: hardSplitF m fuel ((c :: cs).drop m)

/-- Hard-splitting an over-long sentence into `max_chars`-sized pieces. -/
def hardSplit (m : Nat) (s : List Char) : List (List Char) := hardSplitF m s.length s

/-- Loop body of `split_long_paragraph`: state is `(chunks, current)`. -/
def slpStep (maxChars : Nat) (st : List (List Char) × List Char) (sent0 : List Char) :
    List (List Char) × List Char :=
  let chunks := st.1
  let current := st.2
  let sent := strip sent0
  if sent = [] then (chunks, current)
  else if current.length + sent.length + 1 < maxChars then
    (chunks, if current = [] then sent else current ++ [' '] ++ sent)
  else
    let chunks2 := if current = [] then chunks else chunks ++ [strip current]
    if maxChars < sent.length then (chunks2 ++ hardSplit maxChars sent, [])
    else (chunks2, sent)

/-- `split_long_paragraph(para, max_chars)`: split a long paragraph by
sentences and group them into sub-paragraphs below `max_chars`. -/
def split_long_paragraph (para0 : List Char) (maxChars : Nat) : List (List Char) :=
  let para := strip para0
  if para = [] then []
  else
    let st := (splitSents para).foldl (slpStep maxChars) ([], [])
    if st.2 = [] then st.1 else st.1 ++ [strip st.2]

/-- Loop body of `chunk_text`: state is `(chunks, current)`. -/
def ctStep (maxChars overlap : Nat) (st : List (List Char) × List Char) (sp : List Char) :
    List (List Char) × List Char :=
  let chunks := st.1
  let current := st.2
  if current.length + sp.length + 2 < maxChars then
    (chunks, current ++ sp ++ nl2)
  else
    let chunks2 := if current = [] then chunks else chunks ++ [strip current]
    if 0 < overlap ∧ overlap < current.length then
      (chunks2, takeRight overlap current ++ nl2 ++ sp ++ nl2)
    else
      (chunks2, sp ++ nl2)

/-- Run the `chunk_text` accumulation loop from a given state over a list of
sub-paragraphs and flush the final buffer. -/
def ctRun (maxChars overlap : Nat) (sps : List (List Char))
    (st : List (List Char) × List Char) : List (List Char) :=
  let fin := sps.foldl (ctStep maxChars overlap) st
  if fin.2 = [] then fin.1 else fin.1 ++ [strip fin.2]

/-- The flattened list of sub-paragraphs that `chunk_text` iterates over. -/
def subParas (maxChars : Nat) (paragraphs : List (List Char)) : List (List Char) :=
  paragraphs.flatMap (fun p =>
    if maxChars < p.length then split_long_paragraph p maxChars else [p])

/-- The stripped, non-empty paragraphs of the input text. -/
def ctParagraphs (text : List Char) : List (List Char) :=
  ((splitParas (strip text)).map strip).filter (fun p => p ≠ [])

/-- `chunk_text(text, max_chars, overlap)`: hybrid paragraph chunking with
overlap. -/
def chunk_text (text : List Char) (maxChars overlap : Nat) : List (List Char) :=
  if text = [] then []
  else ctRun maxChars overlap (subParas maxChars (ctParagraphs text)) ([], [])

/-! ### `reranker.py` — `rerank`

A candidate context dict.  The keys the reranker reads or writes are
explicit fields (`text`, `score`, `vector_score`, `rerank_score`); every
other key of the dict is the opaque `other` component, which `rerank`
never touches.  Scores are rationals (standing for the floats produced by
the opaque models); absent dict keys are `none`. -/
structure Candidate (α : Type) where
  text : List Char
  score : Option ℚ
  vector_score : Option ℚ
  rerank_score : Option ℚ
  other : α
deriving DecidableEq, Repr

/-- The state of the caller's candidate list after `rerank`'s mutation
loop: each dict gains `rerank_score` and `vector_score` and has `score`
overwritten by the cross-encoder score of `(query, text)`.  `pred` is the
opaque `CrossEncoder.predict` scoring function. -/
def rerankEffect (pred : List Char × List Char → ℚ) (query : List Char)
    (candidates : List (Candidate α)) : List (Candidate α) :=
  candidates.map (fun ctx =>
    let s := pred (query, ctx.text)
    { ctx with rerank_score := some s, vector_score := some (ctx.score.getD 0),
               score := some s })

/-- Sort key used by `rerank`: the (always present) `rerank_score`. -/
def rkey (c : Candidate α) : ℚ := c.rerank_score.getD 0

/-- Stable descending insertion: insert `a` before the first element whose
key is `≤ key a` (so earlier-listed elements win ties).  This computes what
Python's stable `sorted(..., key=..., reverse=True)` computes. -/
def insertDesc (key : α → ℚ) (a : α) : List α → List α
  | [] => [a]
  | b :: l => if key a < key b then b :: insertDesc key a l else a :: b :: l

/-- Stable sort, descending by `key` (the model of Python `sorted` with
`reverse=True`). -/
def sortDesc (key : α → ℚ) : List α → List α
  | [] => []
  | a :: l => insertDesc key a (sortDesc key l)

/-- `rerank(reranker, query, candidates, top_k)` from `reranker.py`. -/
def rerank (pred : List Char × List Char → ℚ) (query : List Char)
    (candidates : List (Candidate α)) (top_k : Option Nat) : List (Candidate α) :=
  if candidates.isEmpty then []
  else
    let scored := rerankEffect pred query candidates
    let reranked := sortDesc rkey scored
    match top_k with
    | some k => reranked.take k
    | none => reranked

/-! ### `retriever.py` — `retrieve_news`

The Qdrant client is opaque: `search limit` stands for
`client.query_points(collection, query_vector, limit, ...).points` for the
fixed collection and embedded question.  A hit carries a float score and an
optional payload with optional keys. -/

structure Payload where
  lang : Option (List Char)
  article_id : Option (List Char)
  text : Option (List Char)
  title : Option (List Char)
  url : Option (List Char)
deriving DecidableEq, Repr

structure Hit where
  score : ℚ
  payload : Option Payload
deriving DecidableEq, Repr

/-- The non-reranker keys of a context dict built by `retrieve_news`. -/
structure ContextMeta where
  lang : List Char
  article_id : List Char
  title : Option (List Char)
  url : Option (List Char)
deriving DecidableEq, Repr

/-- An absent payload behaves as an empty dict. -/
def emptyPayload : Payload := ⟨none, none, none, none, none⟩

/-- Building one context dict from a Qdrant hit (`retrieve_news`, step 3). -/
def toContext (hit : Hit) : Candidate ContextMeta :=
  let p := hit.payload.getD emptyPayload
  { text := p.text.getD []
    score := some hit.score
    vector_score := none
    rerank_score := none
    other :=
      { lang := p.lang.getD ['?']
        article_id := p.article_id.getD (p.url.getD "unknown".toList)
        title := p.title
        url := p.url } }

/-- The candidate-fetch width of `retrieve_news`: `initial_candidates` when
given, else `max(top_k * 3, 20)` with a reranker, else `top_k`. -/
def fetch_k (rerankerProvided : Bool) (top_k : Nat) (initial_candidates : Option Nat) : Nat :=
  if rerankerProvided then initial_candidates.getD (max (top_k * 3) 20) else top_k

/-- The rerank width of `retrieve_news`: `rerank_top_k` when given, else
`fetch_k`, and `top_k` without a reranker. -/
def rerank_k (rerankerProvided : Bool) (top_k : Nat) (rerank_top_k fk : Option Nat) : Nat :=
  if rerankerProvided then rerank_top_k.getD (fk.getD 0) else top_k

/-- `retrieve_news` from `retriever.py`.  `search` is the opaque vector
index, `reranker` the optional cross-encoder scoring function. -/
def retrieve_news (search : Nat → List Hit)
    (reranker : Option (List Char × List Char → ℚ)) (question : List Char)
    (top_k : Nat) (rerank_top_k initial_candidates : Option Nat) :
    List (Candidate ContextMeta) :=
  let fk := fetch_k reranker.isSome top_k initial_candidates
  let rk := rerank_k reranker.isSome top_k rerank_top_k (some fk)
  let hits := search fk
  if hits = [] then []
  else
    let contexts := hits.map toContext
    match reranker with
    | some pred => (rerank pred question contexts (some rk)).take top_k
    | none => contexts.take top_k

/-! ### `prepare_data_rag.py` — `process_language` -/

/-- A raw article as loaded from `vnexpress_articles.json`; absent keys are
`none` (`art.get(key, "")` supplies the default). -/
structure Article where
  content : Option (List Char)
  content_en : Option (List Char)
  title : Option (List Char)
  title_en : Option (List Char)
  url : Option (List Char)
  date : Option (List Char)
deriving DecidableEq, Repr

/-- One JSONL chunk record written by `process_language` (the id string
`f"{lang}-vnexpress-{i}-{j}"` is represented by its components). -/
structure ChunkRecord where
  lang : List Char
  article_index : Nat
  chunk_index : Nat
  text : List Char
  title : List Char
  url : List Char
  date : List Char
deriving DecidableEq, Repr

/-- The language tag `"vi"`. -/
def viStr : List Char := "vi".toList

/-- The content field selected for a language. -/
def getContent (lang : List Char) (a : Article) : List Char :=
  (if lang = viStr then a.content else a.content_en).getD []

/-- The title field selected for a language. -/
def getTitle (lang : List Char) (a : Article) : List Char :=
  (if lang = viStr then a.title else a.title_en).getD []

/-- The chunk records `process_language` writes for one article. -/
def docRecords (lang : List Char) (i : Nat) (a : Article) : List ChunkRecord :=
  let content := getContent lang a
  if (strip content).length < 200 then []
  else
    (chunk_text content 900 200).enum.map (fun jc =>
      { lang := lang
        article_index := i
        chunk_index := jc.1
        text := jc.2
        title := getTitle lang a
        url := a.url.getD []
        date := a.date.getD [] })

/-- `process_language(articles, lang)`: the full sequence of records
written to the output JSONL file. -/
def process_language (articles : List Article) (lang : List Char) : List ChunkRecord :=
  articles.enum.flatMap (fun ia => docRecords lang ia.1 ia.2)

/-! ### `ingest.py` — `batched` -/

/-- Loop of the `batched` generator: accumulate into `batch`, yield when it
reaches `size`, flush the remainder. -/
def batchedLoop (size : Nat) : List α → List α → List (List α)
  | [], batch => if batch.isEmpty then [] else [batch]
  | x :: xs, batch =>
      let b := batch ++ [x]
      if b.length = size then b :: batchedLoop size xs []
      else batchedLoop size xs b

/-- `batched(records, size)` from `ingest.py`. -/
def batched (records : List α) (size : Nat) : List (List α) :=
  batchedLoop size records []

/-! ## General lemmas -/

theorem flatMap_filter_of_eq_nil (l : List β) (p : β → Bool) (f : β → List γ)
    (h : ∀ x ∈ l, p x = false → f x = []) :
    l.flatMap f = (l.filter p).flatMap f := by
  induction l with
  | nil => rfl
  | cons x t ih =>
      have ht : t.flatMap f = (t.filter p).flatMap f :=
        ih (fun y hy => h y (List.mem_cons_of_mem x hy))
      cases hpx : p x with
      | true => simp [List.flatMap_cons, List.filter_cons, hpx, ht]
      | false =>
          simp [List.flatMap_cons, List.filter_cons, hpx, ht,
            h x (List.mem_cons_self x t) hpx]

/-! ## Stable descending sort: permutation, sortedness, stability -/

theorem insertDesc_perm (key : α → ℚ) (a : α) (l : List α) :
    (insertDesc key a l).Perm (a :: l) := by
  induction l with
  | nil => exact List.Perm.refl _
  | cons b t ih =>
      unfold insertDesc
      by_cases hab : key a < key b
      · simp only [if_pos hab]
        exact (ih.cons b).trans (List.Perm.swap a b t)
      · simp only [if_neg hab]
        exact List.Perm.refl _

theorem sortDesc_perm (key : α → ℚ) (l : List α) : (sortDesc key l).Perm l := by
  induction l with
  | nil => exact List.Perm.refl _
  | cons a t ih => exact (insertDesc_perm key a (sortDesc key t)).trans (ih.cons a)

theorem insertDesc_sorted (key : α → ℚ) (a : α) (l : List α)
    (h : l.Pairwise (fun x y => key y ≤ key x)) :
    (insertDesc key a l).Pairwise (fun x y => key y ≤ key x) := by
  induction l with
  | nil => simp [insertDesc]
  | cons b t ih =>
      rw [List.pairwise_cons] at h
      unfold insertDesc
      by_cases hab : key a < key b
      · simp only [if_pos hab]
        rw [List.pairwise_cons]
        refine ⟨fun x hx => ?_, ih h.2⟩
        rcases (insertDesc_perm key a t).mem_iff.mp hx with hx2
        rcases List.mem_cons.mp hx2 with rfl | hx3
        · exact le_of_lt hab
        · exact h.1 x hx3
      · simp only [if_neg hab]
        rw [List.pairwise_cons]
        refine ⟨fun x hx => ?_, List.pairwise_cons.mpr h⟩
        rcases List.mem_cons.mp hx with rfl | hx3
        · exact not_lt.mp hab
        · exact le_trans (h.1 x hx3) (not_lt.mp hab)

theorem sortDesc_sorted (key : α → ℚ) (l : List α) :
    (sortDesc key l).Pairwise (fun x y => key y ≤ key x) := by
  induction l with
  | nil => simp [sortDesc]
  | cons a t ih => exact insertDesc_sorted key a (sortDesc key t) ih

theorem insertDesc_stable (key : α → ℚ) (tag : α → Nat) (a : α) (l : List α)
    (hsort : l.Pairwise (fun x y => key y ≤ key x))
    (hS : l.Pairwise (fun x y => key x = key y → tag x < tag y))
    (hlt : ∀ b ∈ l, tag a < tag b) :
    (insertDesc key a l).Pairwise (fun x y => key x = key y → tag x < tag y) := by
  induction l with
  | nil => simp [insertDesc]
  | cons b t ih =>
      rw [List.pairwise_cons] at hsort hS
      unfold insertDesc
      by_cases hab : key a < key b
      · simp only [if_pos hab]
        rw [List.pairwise_cons]
        refine ⟨fun x hx hkey => ?_,
          ih hsort.2 hS.2 (fun c hc => hlt c (List.mem_cons_of_mem b hc))⟩
        rcases List.mem_cons.mp ((insertDesc_perm key a t).mem_iff.mp hx) with rfl | hx3
        · exact absurd hkey.symm (ne_of_lt hab)
        · exact hS.1 x hx3 hkey
      · simp only [if_neg hab]
        rw [List.pairwise_cons]
        exact ⟨fun x hx _ => hlt x hx, List.pairwise_cons.mpr hS⟩

theorem sortDesc_stable (key : α → ℚ) (tag : α → Nat) (l : List α)
    (h : l.Pairwise (fun x y => tag x < tag y)) :
    (sortDesc key l).Pairwise (fun x y => key x = key y → tag x < tag y) := by
  induction l with
  | nil => simp [sortDesc]
  | cons a t ih =>
      rw [List.pairwise_cons] at h
      exact insertDesc_stable key tag a (sortDesc key t)
        (sortDesc_sorted key t)
        (ih h.2)
        (fun b hb => h.1 b ((sortDesc_perm key t).mem_iff.mp hb))

/-! ## `batched` loop lemmas -/

theorem batchedLoop_flatten (size : Nat) :
    ∀ (xs batch : List α), (batchedLoop size xs batch).flatten = batch ++ xs := by
  intro xs
  induction xs with
  | nil =>
      intro batch
      unfold batchedLoop
      by_cases hb : batch.isEmpty
      · simp only [if_pos hb]
        simp [List.isEmpty_iff.mp hb]
      · simp only [if_neg hb]
        simp
  | cons x t ih =>
      intro batch
      unfold batchedLoop
      by_cases hl : (batch ++ [x]).length = size
      · simp only [if_pos hl, List.flatten_cons, ih]
        simp
      · simp only [if_neg hl, ih]
        simp

theorem batchedLoop_mem (size : Nat) (hs : 1 ≤ size) :
    ∀ (xs batch : List α), batch.length < size →
      ∀ b ∈ batchedLoop size xs batch, b ≠ [] ∧ b.length ≤ size := by
  intro xs
  induction xs with
  | nil =>
      intro batch hlt b hb
      unfold batchedLoop at hb
      by_cases hbe : batch.isEmpty
      · simp [if_pos hbe] at hb
      · simp only [if_neg hbe, List.mem_singleton] at hb
        subst hb
        exact ⟨List.isEmpty_eq_false.mp (Bool.not_eq_true _ ▸ by simpa using hbe),
          le_of_lt hlt⟩
  | cons x t ih =>
      intro batch hlt b hb
      unfold batchedLoop at hb
      by_cases hl : (batch ++ [x]).length = size
      · simp only [if_pos hl, List.mem_cons] at hb
        rcases hb with rfl | hb2
        · constructor
          · simp
          · exact le_of_eq hl
        · exact ih [] (lt_of_lt_of_le Nat.zero_lt_one hs) b hb2
      · simp only [if_neg hl] at hb
        have hlen : (batch ++ [x]).length < size := by
          have : (batch ++ [x]).length ≤ size := by
            simp only [List.length_append, List.length_singleton]
            omega
          omega
        exact ih (batch ++ [x]) hlen b hb
      
theorem batchedLoop_dropLast (size : Nat) (hs : 1 ≤ size) :
    ∀ (xs batch : List α), batch.length < size →
      ∀ b ∈ (batchedLoop size xs batch).dropLast, b.length = size := by
  intro xs
  induction xs with
  | nil =>
      intro batch hlt b hb
      unfold batchedLoop at hb
      by_cases hbe : batch.isEmpty
      · simp [if_pos hbe] at hb
      · simp [if_neg hbe, List.dropLast_single] at hb
  | cons x t ih =>
      intro batch hlt b hb
      unfold batchedLoop at hb
      by_cases hl : (batch ++ [x]).length = size
      · simp only [if_pos hl] at hb
        rcases hrec : batchedLoop size t ([] : List α) with _ | ⟨y, ys⟩
        · rw [hrec] at hb
          simp at hb
        · rw [hrec, List.dropLast_cons_of_ne_nil (by simp)] at hb
          rcases List.mem_cons.mp hb with rfl | hb2
          · exact hl
          · exact ih [] (lt_of_lt_of_le Nat.zero_lt_one hs) b (hrec ▸ hb2)
      · simp only [if_neg hl] at hb
        have hlen : (batch ++ [x]).length < size := by
          have : (batch ++ [x]).length ≤ size := by
            simp only [List.length_append, List.length_singleton]
            omega
          omega
        exact ih (batch ++ [x]) hlen b hb

/-- C10: for every input sequence and every `size ≥ 1`, `batched` yields
only non-empty batches whose in-order concatenation is the input; every
batch except possibly the last has length exactly `size`, and every batch
(the last included) has length at most `size`. -/
theorem batched_spec (records : List α) (size : Nat) (hs : 1 ≤ size) :
    (batched records size).flatten = records
    ∧ (∀ b ∈ batched records size, b ≠ [] ∧ b.length ≤ size)
    ∧ (∀ b ∈ (batched records size).dropLast, b.length = size) := by
  refine ⟨?_, ?_, ?_⟩
  · simpa using batchedLoop_flatten size records []
  · exact batchedLoop_mem size hs records [] (by simpa using hs)
  · exact batchedLoop_dropLast size hs records [] (by simpa using hs)

/-- Witness for C10 at a concrete input. -/
theorem batched_spec_witness :
    (batched [10, 20, 30, 40, 50] 2).flatten = [10, 20, 30, 40, 50]
    ∧ (∀ b ∈ batched [10, 20, 30, 40, 50] 2, b ≠ [] ∧ b.length ≤ 2)
    ∧ (∀ b ∈ (batched [10, 20, 30, 40, 50] 2).dropLast, b.length = 2) :=
  batched_spec [10, 20, 30, 40, 50] 2 (by decide)

/-! ## Retriever and reranker claims -/

/-- C3: with a reranker, the index is queried with limit
`initial_candidates` when given and `max(top_k * 3, 20)` otherwise; with no
reranker, with limit `top_k`.  The last conjunct states that
`retrieve_news` consults the index only at that limit: two indexes that
agree there give identical retrieval results. -/
theorem fetch_k_spec :
    (∀ top_k ic : Nat, fetch_k true top_k (some ic) = ic)
    ∧ (∀ top_k : Nat, fetch_k true top_k none = max (top_k * 3) 20)
    ∧ (∀ (top_k : Nat) (ic : Option Nat), fetch_k false top_k ic = top_k)
    ∧ ∀ (s1 s2 : Nat → List Hit) (reranker : Option (List Char × List Char → ℚ))
        (question : List Char) (top_k : Nat) (rtk ic : Option Nat),
        s1 (fetch_k reranker.isSome top_k ic) = s2 (fetch_k reranker.isSome top_k ic) →
        retrieve_news s1 reranker question top_k rtk ic
          = retrieve_news s2 reranker question top_k rtk ic := by
  refine ⟨fun _ _ => rfl, fun _ => rfl, fun _ _ => rfl, ?_⟩
  intro s1 s2 reranker question top_k rtk ic h
  unfold retrieve_news
  dsimp only
  rw [h]

/-- Witness for C3's last conjunct: an index answering `limit=20` (the
widened fetch width for `top_k=5`, reranker on, `initial_candidates`
unset) determines the result. -/
theorem fetch_k_spec_witness :
    retrieve_news (fun n => if n = 20 then [] else [⟨1, none⟩])
        (some (fun _ => 0)) [] 5 none none
      = retrieve_news (fun _ => []) (some (fun _ => 0)) [] 5 none none :=
  fetch_k_spec.2.2.2 (fun n => if n = 20 then [] else [⟨1, none⟩]) (fun _ => [])
    (some (fun _ => 0)) [] 5 none none (by simp [fetch_k])

/-- C9: `rerank` mutates every dict of its input candidate list in place —
the post-call state of the caller's list is `rerankEffect`: position by
position, `rerank_score` and `vector_score` are added, `score` is
overwritten with the cross-encoder score, and `text` and all other keys
are untouched; this covers candidates beyond `top_k`, which are absent
from the returned list, and the returned list draws its elements from the
same mutated dicts. -/
theorem rerank_mutation (pred : List Char × List Char → ℚ) (query : List Char)
    (cs : List (Candidate α)) (hne : cs ≠ []) :
    (∀ i : Nat, (rerankEffect pred query cs)[i]?
        = (cs[i]?).map (fun c =>
            ⟨c.text, some (pred (query, c.text)), some (c.score.getD 0),
             some (pred (query, c.text)), c.other⟩))
    ∧ ∀ (k : Option Nat), ∀ r ∈ rerank pred query cs k, r ∈ rerankEffect pred query cs := by
  constructor
  · intro i
    unfold rerankEffect
    rw [List.getElem?_map]
  · intro k r hr
    unfold rerank at hr
    rw [if_neg (by simpa using hne)] at hr
    have hmem : r ∈ sortDesc rkey (rerankEffect pred query cs) := by
      cases k with
      | none => exact hr
      | some kk => exact (List.take_sublist kk _).mem hr
    exact (sortDesc_perm rkey _).mem_iff.mp hmem

/-- Witness for C9: a two-candidate list; position 1 is beyond `top_k = 1`
yet its dict is mutated (`score` overwritten, both stage scores present,
`text` and `other` untouched). -/
theorem rerank_mutation_witness :
    ([(⟨['a'], some 3, none, none, 7⟩ : Candidate Nat), ⟨['b', 'c'], none, none, none, 9⟩] ≠ [])
    ∧ (rerankEffect (fun p => if p.2 = ['a'] then 3 else 5) []
        [⟨['a'], some 3, none, none, 7⟩, ⟨['b', 'c'], none, none, none, 9⟩])[1]?
      = some ⟨['b', 'c'], some 5, some 0, some 5, 9⟩ :=
  ⟨by decide,
   ((rerank_mutation (fun p => if p.2 = ['a'] then 3 else 5) []
      [⟨['a'], some 3, none, none, 7⟩, ⟨['b', 'c'], none, none, none, 9⟩]
      (by decide)).1 1).trans (by decide)⟩

/-- Every candidate returned by `rerank` is one of the (mutated) input
candidates. -/
theorem mem_rerank (pred : List Char × List Char → ℚ) (query : List Char)
    (cs : List (Candidate α)) (k : Option Nat) :
    ∀ r ∈ rerank pred query cs k, r ∈ rerankEffect pred query cs := by
  intro r hr
  unfold rerank at hr
  by_cases he : cs.isEmpty
  · rw [if_pos he] at hr
    exact absurd hr (List.not_mem_nil r)
  · rw [if_neg he] at hr
    have hmem : r ∈ sortDesc rkey (rerankEffect pred query cs) := by
      cases k with
      | none => exact hr
      | some kk => exact (List.take_sublist kk _).mem hr
    exact (sortDesc_perm rkey _).mem_iff.mp hmem

/-- C2: with non-empty candidates, `rerank(query, candidates, top_k)`
returns the scored candidates sorted by `rerank_score` descending, ties
kept in first-stage order (candidate positions recorded in `other`),
truncated to `top_k`: the result has length `min top_k n`, is
descending-sorted on `rkey` with equal scores in increasing original
position, and it is the *initial segment* of the full stably-sorted pool —
the dropped remainder `rest` completes it to a permutation of the scored
input that is descending-sorted and tie-stable as a whole, so every kept
candidate scores at least as high as every dropped one. -/
theorem rerank_sorted_stable (pred : List Char × List Char → ℚ) (query : List Char)
    (cs : List (Candidate Nat)) (k : Nat) (hne : cs ≠ [])
    (hidx : cs.map Candidate.other = List.range cs.length) :
    (rerank pred query cs (some k)).length = min k cs.length
    ∧ (rerank pred query cs (some k)).Pairwise (fun a b => rkey b ≤ rkey a)
    ∧ (rerank pred query cs (some k)).Pairwise
        (fun a b => rkey a = rkey b → a.other < b.other)
    ∧ ∃ rest, (rerank pred query cs (some k) ++ rest).Perm (rerankEffect pred query cs)
        ∧ (rerank pred query cs (some k) ++ rest).Pairwise (fun a b => rkey b ≤ rkey a)
        ∧ (rerank pred query cs (some k) ++ rest).Pairwise
            (fun a b => rkey a = rkey b → a.other < b.other) := by
  have he : cs.isEmpty = false := by simpa using hne
  have hre : rerank pred query cs (some k)
      = (sortDesc rkey (rerankEffect pred query cs)).take k := by
    unfold rerank
    rw [he]
    rfl
  have hmap : (rerankEffect pred query cs).map Candidate.other = List.range cs.length := by
    unfold rerankEffect
    rw [List.map_map]
    exact hidx
  have htags : (rerankEffect pred query cs).Pairwise (fun a b => a.other < b.other) := by
    have := hmap ▸ List.pairwise_lt_range cs.length
    exact List.pairwise_map.mp this
  refine ⟨?_, ?_, ?_, ?_⟩
  · rw [hre, List.length_take, (sortDesc_perm rkey _).length_eq]
    unfold rerankEffect
    rw [List.length_map]
  · rw [hre]
    exact List.Pairwise.sublist (List.take_sublist k _) (sortDesc_sorted rkey _)
  · rw [hre]
    exact List.Pairwise.sublist (List.take_sublist k _) (sortDesc_stable rkey Candidate.other _ htags)
  · refine ⟨(sortDesc rkey (rerankEffect pred query cs)).drop k, ?_, ?_, ?_⟩
    · rw [hre, List.take_append_drop]
      exact sortDesc_perm rkey _
    · rw [hre, List.take_append_drop]
      exact sortDesc_sorted rkey _
    · rw [hre, List.take_append_drop]
      exact sortDesc_stable rkey Candidate.other _ htags

/-- Witness for C2: three candidates tagged 0,1,2; the middle one scores 5,
the others tie at 2 and must stay in original order; the kept pair heads
the fully sorted pool. -/
theorem rerank_sorted_stable_witness :
    ([(⟨['x'], some 1, none, none, 0⟩ : Candidate Nat), ⟨['y'], some 2, none, none, 1⟩,
        ⟨['z'], some 3, none, none, 2⟩] ≠ [])
    ∧ (rerank (fun p => if p.2 = ['y'] then 5 else 2) ['q']
        [⟨['x'], some 1, none, none, 0⟩, ⟨['y'], some 2, none, none, 1⟩,
         ⟨['z'], some 3, none, none, 2⟩] (some 2)).length
      = min 2 ([(⟨['x'], some 1, none, none, 0⟩ : Candidate Nat), ⟨['y'], some 2, none, none, 1⟩,
         ⟨['z'], some 3, none, none, 2⟩].length)
    ∧ ∃ rest,
        ((rerank (fun p => if p.2 = ['y'] then 5 else 2) ['q']
            [⟨['x'], some 1, none, none, 0⟩, ⟨['y'], some 2, none, none, 1⟩,
             ⟨['z'], some 3, none, none, 2⟩] (some 2)) ++ rest).Perm
          (rerankEffect (fun p => if p.2 = ['y'] then 5 else 2) ['q']
            [⟨['x'], some 1, none, none, 0⟩, ⟨['y'], some 2, none, none, 1⟩,
             ⟨['z'], some 3, none, none, 2⟩])
        ∧ ((rerank (fun p => if p.2 = ['y'] then 5 else 2) ['q']
            [⟨['x'], some 1, none, none, 0⟩, ⟨['y'], some 2, none, none, 1⟩,
             ⟨['z'], some 3, none, none, 2⟩] (some 2)) ++ rest).Pairwise
            (fun a b => rkey b ≤ rkey a)
        ∧ ((rerank (fun p => if p.2 = ['y'] then 5 else 2) ['q']
            [⟨['x'], some 1, none, none, 0⟩, ⟨['y'], some 2, none, none, 1⟩,
             ⟨['z'], some 3, none, none, 2⟩] (some 2)) ++ rest).Pairwise
            (fun a b => rkey a = rkey b → a.other < b.other) := by
  have h := rerank_sorted_stable (fun p => if p.2 = ['y'] then 5 else 2) ['q']
    [⟨['x'], some 1, none, none, 0⟩, ⟨['y'], some 2, none, none, 1⟩,
     ⟨['z'], some 3, none, none, 2⟩] 2 (by decide) (by decide)
  exact ⟨by decide, h.1, h.2.2.2⟩

/-- C4: every candidate returned by `rerank` keeps its text and extra
fields, stores its original first-stage `score` unchanged as
`vector_score`, stores the cross-encoder score of `(query, text)` as
`rerank_score`, and has `score` overwritten with that `rerank_score`. -/
theorem rerank_score_fields (pred : List Char × List Char → ℚ) (query : List Char)
    (cs : List (Candidate α)) (k : Option Nat) (h : ∀ c ∈ cs, c.score ≠ none) :
    ∀ r ∈ rerank pred query cs k, ∃ c ∈ cs,
      r.text = c.text ∧ r.other = c.other ∧ r.vector_score = c.score
      ∧ r.rerank_score = some (pred (query, c.text))
      ∧ r.score = r.rerank_score := by
  intro r hr
  have hmem := mem_rerank pred query cs k r hr
  unfold rerankEffect at hmem
  rcases List.mem_map.mp hmem with ⟨c, hc, hfc⟩
  rcases Option.ne_none_iff_exists'.mp (h c hc) with ⟨s, hs⟩
  refine ⟨c, hc, ?_, ?_, ?_, ?_, ?_⟩ <;>
    simp [← hfc, hs]

/-- Witness for C4: one candidate carrying a first-stage score. -/
theorem rerank_score_fields_witness :
    (∀ c ∈ [(⟨['t'], some 7, none, none, 0⟩ : Candidate Nat)], c.score ≠ none)
    ∧ ∀ r ∈ rerank (fun _ => 4) ['q'] [(⟨['t'], some 7, none, none, 0⟩ : Candidate Nat)] (some 1),
        ∃ c ∈ [(⟨['t'], some 7, none, none, 0⟩ : Candidate Nat)],
          r.text = c.text ∧ r.other = c.other ∧ r.vector_score = c.score
          ∧ r.rerank_score = some ((fun _ => (4 : ℚ)) (['q'], c.text))
          ∧ r.score = r.rerank_score :=
  ⟨by decide,
   rerank_score_fields (fun _ => 4) ['q'] [⟨['t'], some 7, none, none, 0⟩] (some 1) (by decide)⟩

/-- C6: when the index returns zero hits at the widened fetch width,
`retrieve_news` returns the empty list, for every possible reranker — the
reranker is never consulted, and no failure is signalled. -/
theorem retrieve_news_empty (search : Nat → List Hit) (pred : List Char × List Char → ℚ)
    (question : List Char) (top_k : Nat) (rtk ic : Option Nat)
    (h : search (fetch_k true top_k ic) = []) :
    retrieve_news search (some pred) question top_k rtk ic = []
    ∧ ∀ g, retrieve_news search (some g) question top_k rtk ic = [] := by
  have key : ∀ g : List Char × List Char → ℚ,
      retrieve_news search (some g) question top_k rtk ic = [] := by
    intro g
    unfold retrieve_news
    dsimp only
    have h2 : search (fetch_k (some g).isSome top_k ic) = [] := h
    rw [h2]
    simp
  exact ⟨key pred, key⟩

/-- Witness for C6: an index with no hits. -/
theorem retrieve_news_empty_witness :
    retrieve_news (fun _ => []) (some (fun _ => 1)) ['q'] 5 none none = []
    ∧ ∀ g, retrieve_news (fun _ => []) (some g) ['q'] 5 none none = [] :=
  retrieve_news_empty (fun _ => []) (fun _ => 1) ['q'] 5 none none rfl

/-! ## `process_language` claim -/

/-- C7: an article whose stripped content is shorter than 200 characters
contributes zero chunk records, and `process_language`'s output is exactly
the records of the articles that pass the length threshold — skipping is
silent and processing continues with the remaining articles. -/
theorem process_language_short (lang : List Char) :
    (∀ (i : Nat) (a : Article), (strip (getContent lang a)).length < 200 →
        docRecords lang i a = [])
    ∧ ∀ articles : List Article,
        process_language articles lang
          = (articles.enum.filter
              (fun ia => decide (200 ≤ (strip (getContent lang ia.2)).length))).flatMap
              (fun ia => docRecords lang ia.1 ia.2) := by
  have hshort : ∀ (i : Nat) (a : Article), (strip (getContent lang a)).length < 200 →
      docRecords lang i a = [] := by
    intro i a h
    unfold docRecords
    rw [if_pos h]
  refine ⟨hshort, fun articles => ?_⟩
  unfold process_language
  exact flatMap_filter_of_eq_nil articles.enum _ _ (by
    intro ia _ hfalse
    have hlt : (strip (getContent lang ia.2)).length < 200 := by
      have := decide_eq_false_iff_not.mp hfalse
      omega
    exact hshort ia.1 ia.2 hlt)

/-- Witness for C7: a 2-character article is skipped. -/
theorem process_language_short_witness :
    ((strip (getContent viStr ⟨some ['h', 'i'], none, none, none, none, none⟩)).length < 200)
    ∧ docRecords viStr 0 ⟨some ['h', 'i'], none, none, none, none, none⟩ = [] :=
  ⟨by decide,
   (process_language_short viStr).1 0 ⟨some ['h', 'i'], none, none, none, none, none⟩ (by decide)⟩

/-! ## String lemmas for the chunker -/

theorem nonWs_append (a b : List Char) : nonWs (a ++ b) = nonWs a ++ nonWs b := by
  unfold nonWs
  exact List.filter_append a b

@[simp]
theorem nonWs_nil : nonWs ([] : List Char) = [] := rfl

theorem nonWs_eq_nil_of_all_ws (s : List Char) (h : ∀ x ∈ s, isSpace x) :
    nonWs s = [] := by
  unfold nonWs
  rw [List.filter_eq_nil_iff]
  intro a ha
  simp [h a ha]

theorem nonWs_lstrip (s : List Char) : nonWs (lstrip s) = nonWs s := by
  conv_rhs => rw [← List.takeWhile_append_dropWhile isSpace s]
  rw [nonWs_append,
    nonWs_eq_nil_of_all_ws _ (fun x hx => List.mem_takeWhile_imp hx)]
  rfl

theorem nonWs_reverse (s : List Char) : nonWs s.reverse = (nonWs s).reverse := by
  unfold nonWs
  exact List.filter_reverse _ s

theorem nonWs_rstrip (s : List Char) : nonWs (rstrip s) = nonWs s := by
  unfold rstrip
  rw [nonWs_reverse]
  have h : nonWs (s.reverse.dropWhile isSpace) = nonWs s.reverse := by
    exact nonWs_lstrip s.reverse
  rw [h, nonWs_reverse, List.reverse_reverse]

theorem nonWs_strip (s : List Char) : nonWs (strip s) = nonWs s := by
  unfold strip
  rw [nonWs_rstrip, nonWs_lstrip]

theorem nonWs_eq_nil_of_strip_eq_nil (s : List Char) (h : strip s = []) :
    nonWs s = [] := by
  rw [← nonWs_strip, h]
  rfl

theorem strip_length_le (s : List Char) : (strip s).length ≤ s.length := by
  unfold strip rstrip lstrip
  calc ((lstrip s).reverse.dropWhile isSpace).reverse.length
      ≤ (lstrip s).reverse.length := by
        rw [List.length_reverse]
        exact (List.dropWhile_sublist isSpace).length_le
    _ ≤ s.length := by
        rw [List.length_reverse]
        exact (List.dropWhile_sublist isSpace).length_le

theorem takeRight_length_le (n : Nat) (s : List Char) : (takeRight n s).length ≤ n := by
  unfold takeRight
  rw [List.length_drop]
  omega

theorem lstrip_append (a b : List Char) (h : lstrip a ≠ []) :
    lstrip (a ++ b) = lstrip a ++ b := by
  unfold lstrip at *
  rw [List.dropWhile_append, if_neg (by simpa using h)]

theorem rstrip_append (a b : List Char) (h : nonWs b ≠ []) :
    rstrip (a ++ b) = a ++ rstrip b := by
  have hb : b.reverse.dropWhile isSpace ≠ [] := by
    intro hcon
    apply h
    apply nonWs_eq_nil_of_all_ws
    intro x hx
    have := List.dropWhile_eq_nil_iff.mp hcon x (by simpa using hx)
    exact this
  unfold rstrip
  rw [List.reverse_append, List.dropWhile_append, if_neg (by simpa using hb),
    List.reverse_append, List.reverse_reverse]

theorem strip_append_take (p r cur : List Char)
    (hcur : lstrip cur = p ++ r) (hr : nonWs r ≠ []) :
    (strip cur).take p.length = p := by
  unfold strip
  rw [hcur, rstrip_append p r hr, List.take_left]

/-! ## C1: passage length bounds -/

theorem hardSplitF_length_le (m : Nat) :
    ∀ (fuel : Nat) (s : List Char), ∀ c ∈ hardSplitF m fuel s, c.length ≤ m := by
  intro fuel
  induction fuel with
  | zero =>
      intro s c hc
      cases s with
      | nil => exact absurd hc (List.not_mem_nil c)
      | cons x t => exact absurd hc (List.not_mem_nil c)
  | succ n ih =>
      intro s c hc
      cases s with
      | nil => exact absurd hc (List.not_mem_nil c)
      | cons x t =>
          rw [hardSplitF] at hc
          rcases List.mem_cons.mp hc with rfl | hc2
          · calc (strip ((x :: t).take m)).length
                ≤ ((x :: t).take m).length := strip_length_le _
              _ ≤ m := by
                  rw [List.length_take]
                  omega
          · exact ih _ c hc2

theorem slpStep_length_le (m : Nat) (st : List (List Char) × List Char)
    (sent0 : List Char)
    (h1 : ∀ c ∈ st.1, c.length ≤ m) (h2 : st.2.length ≤ m) :
    (∀ c ∈ (slpStep m st sent0).1, c.length ≤ m) ∧ (slpStep m st sent0).2.length ≤ m := by
  unfold slpStep
  dsimp only
  by_cases hs : strip sent0 = []
  · rw [if_pos hs]
    exact ⟨h1, h2⟩
  · rw [if_neg hs]
    by_cases hfit : st.2.length + (strip sent0).length + 1 < m
    · rw [if_pos hfit]
      refine ⟨h1, ?_⟩
      by_cases hc : st.2 = []
      · rw [if_pos hc]
        rw [hc] at hfit
        simp only [List.length_nil] at hfit
        dsimp only
        omega
      · rw [if_neg hc]
        dsimp only
        simp only [List.length_append, List.length_singleton]
        omega
    · rw [if_neg hfit]
      have hch2 : ∀ c ∈ (if st.2 = [] then st.1 else st.1 ++ [strip st.2]), c.length ≤ m := by
        by_cases hc : st.2 = []
        · rw [if_pos hc]
          exact h1
        · rw [if_neg hc]
          intro c hc2
          rcases List.mem_append.mp hc2 with h | h
          · exact h1 c h
          · rw [List.mem_singleton.mp h]
            exact le_trans (strip_length_le _) h2
      by_cases hlong : m < (strip sent0).length
      · rw [if_pos hlong]
        refine ⟨?_, by simp⟩
        intro c hc
        rcases List.mem_append.mp hc with h | h
        · exact hch2 c h
        · exact hardSplitF_length_le m _ _ c h
      · rw [if_neg hlong]
        exact ⟨hch2, le_of_not_lt hlong⟩

theorem split_long_paragraph_length_le (para0 : List Char) (m : Nat) :
    ∀ c ∈ split_long_paragraph para0 m, c.length ≤ m := by
  unfold split_long_paragraph
  dsimp only
  by_cases hp : strip para0 = []
  · rw [if_pos hp]
    intro c hc
    exact absurd hc (List.not_mem_nil c)
  · rw [if_neg hp]
    have hinv : ∀ (sents : List (List Char)) (st : List (List Char) × List Char),
        (∀ c ∈ st.1, c.length ≤ m) → st.2.length ≤ m →
        (∀ c ∈ (sents.foldl (slpStep m) st).1, c.length ≤ m)
          ∧ (sents.foldl (slpStep m) st).2.length ≤ m := by
      intro sents
      induction sents with
      | nil => intro st h1 h2; exact ⟨h1, h2⟩
      | cons s t iht =>
          intro st h1 h2
          rw [List.foldl_cons]
          have := slpStep_length_le m st s h1 h2
          exact iht _ this.1 this.2
    have hfin := hinv (splitSents (strip para0)) ([], []) (by simp) (by simp)
    by_cases hlast : ((splitSents (strip para0)).foldl (slpStep m) ([], [])).2 = []
    · rw [if_pos hlast]
      exact hfin.1
    · rw [if_neg hlast]
      intro c hc
      rcases List.mem_append.mp hc with h | h
      · exact hfin.1 c h
      · rw [List.mem_singleton.mp h]
        exact le_trans (strip_length_le _) hfin.2

theorem subParas_length_le (m : Nat) (paragraphs : List (List Char)) :
    ∀ sp ∈ subParas m paragraphs, sp.length ≤ m := by
  intro sp hsp
  unfold subParas at hsp
  rcases List.mem_flatMap.mp hsp with ⟨p, _, hmem⟩
  by_cases hlong : m < p.length
  · rw [if_pos hlong] at hmem
    exact split_long_paragraph_length_le p m sp hmem
  · rw [if_neg hlong] at hmem
    rw [List.mem_singleton.mp hmem]
    exact le_of_not_lt hlong

theorem ctStep_length_le (m o : Nat) (st : List (List Char) × List Char)
    (sp : List Char) (hsp : sp.length ≤ m)
    (h1 : ∀ c ∈ st.1, c.length ≤ m + o + 4) (h2 : st.2.length ≤ m + o + 4) :
    (∀ c ∈ (ctStep m o st sp).1, c.length ≤ m + o + 4)
    ∧ (ctStep m o st sp).2.length ≤ m + o + 4 := by
  unfold ctStep
  dsimp only
  by_cases hfit : st.2.length + sp.length + 2 < m
  · rw [if_pos hfit]
    refine ⟨h1, ?_⟩
    simp only [List.length_append]
    unfold nl2
    simp only [List.length_cons, List.length_nil]
    omega
  · rw [if_neg hfit]
    have hch2 : ∀ c ∈ (if st.2 = [] then st.1 else st.1 ++ [strip st.2]),
        c.length ≤ m + o + 4 := by
      by_cases hc : st.2 = []
      · rw [if_pos hc]
        exact h1
      · rw [if_neg hc]
        intro c hc2
        rcases List.mem_append.mp hc2 with h | h
        · exact h1 c h
        · rw [List.mem_singleton.mp h]
          exact le_trans (strip_length_le _) h2
    by_cases hov : 0 < o ∧ o < st.2.length
    · rw [if_pos hov]
      refine ⟨hch2, ?_⟩
      have := takeRight_length_le o st.2
      simp only [List.length_append]
      unfold nl2
      simp only [List.length_cons, List.length_nil]
      omega
    · rw [if_neg hov]
      refine ⟨hch2, ?_⟩
      simp only [List.length_append]
      unfold nl2
      simp only [List.length_cons, List.length_nil]
      omega

/-- C1 (amended): every passage emitted by `chunk_text` has length at most
`max_chars + overlap + 4` (an overlap seed of `overlap` characters plus
two two-character paragraph joiners may be stacked on top of a sub-
paragraph of at most `max_chars` characters); the original `≤ max_chars`
bound fails, see the counterexample. -/
theorem chunk_text_length_bound (text : List Char) (maxChars overlap : Nat)
    (_hm : 0 < maxChars) :
    ∀ c ∈ chunk_text text maxChars overlap, c.length ≤ maxChars + overlap + 4 := by
  unfold chunk_text
  by_cases ht : text = []
  · rw [if_pos ht]
    intro c hc
    exact absurd hc (List.not_mem_nil c)
  · rw [if_neg ht]
    have hsp := subParas_length_le maxChars (ctParagraphs text)
    unfold ctRun
    dsimp only
    have hinv : ∀ (sps : List (List Char)) (st : List (List Char) × List Char),
        (∀ s ∈ sps, s.length ≤ maxChars) →
        (∀ c ∈ st.1, c.length ≤ maxChars + overlap + 4) →
        st.2.length ≤ maxChars + overlap + 4 →
        (∀ c ∈ (sps.foldl (ctStep maxChars overlap) st).1,
            c.length ≤ maxChars + overlap + 4)
          ∧ (sps.foldl (ctStep maxChars overlap) st).2.length ≤ maxChars + overlap + 4 := by
      intro sps
      induction sps with
      | nil => intro st _ h1 h2; exact ⟨h1, h2⟩
      | cons s t iht =>
          intro st hs h1 h2
          rw [List.foldl_cons]
          have hstep := ctStep_length_le maxChars overlap st s
            (hs s (List.mem_cons_self s t)) h1 h2
          exact iht _ (fun x hx => hs x (List.mem_cons_of_mem s hx)) hstep.1 hstep.2
    have hfin := hinv (subParas maxChars (ctParagraphs text)) ([], []) hsp
      (by simp) (by simp)
    by_cases hlast :
        ((subParas maxChars (ctParagraphs text)).foldl
          (ctStep maxChars overlap) ([], [])).2 = []
    · rw [if_pos hlast]
      exact hfin.1
    · rw [if_neg hlast]
      intro c hc
      rcases List.mem_append.mp hc with h | h
      · exact hfin.1 c h
      · rw [List.mem_singleton.mp h]
        exact le_trans (strip_length_le _) hfin.2

/-- Witness for the amended C1 bound at a concrete input. -/
theorem chunk_text_length_bound_witness :
    (0 < 10)
    ∧ ∀ c ∈ chunk_text ("aaaaaaa\n\nbbbbbbb\n\nccccccc".toList) 10 5,
        c.length ≤ 10 + 5 + 4 :=
  ⟨by decide,
   chunk_text_length_bound ("aaaaaaa\n\nbbbbbbb\n\nccccccc".toList) 10 5 (by decide)⟩

/-- Counterexample to C1 as stated: with `max_chars = 10`, `overlap = 5`,
an input whose paragraphs (hence sentences) all fit within `max_chars` —
so no hard-splitting is possible — still produces a 14-character passage. -/
theorem chunk_text_length_cex :
    (∀ p ∈ ctParagraphs ("aaaaaaa\n\nbbbbbbb\n\nccccccc".toList), p.length ≤ 10)
    ∧ ¬ ∀ c ∈ chunk_text ("aaaaaaa\n\nbbbbbbb\n\nccccccc".toList) 10 5,
        c.length ≤ 10 := by
  decide

/-! ## C5: overlap seeding -/

theorem nonWs_nl2 : nonWs nl2 = [] := rfl

theorem ctRun_cons (m o : Nat) (sp : List Char) (t : List (List Char))
    (st : List (List Char) × List Char) :
    ctRun m o (sp :: t) st = ctRun m o t (ctStep m o st sp) := by
  unfold ctRun
  rw [List.foldl_cons]

theorem ctRun_nil (m o : Nat) (st : List (List Char) × List Char) :
    ctRun m o [] st = if st.2 = [] then st.1 else st.1 ++ [strip st.2] := by
  unfold ctRun
  rw [List.foldl_nil]

theorem ctStep_chunks (m o : Nat) (chunks : List (List Char)) (cur sp : List Char) :
    ctStep m o (chunks, cur) sp
      = (chunks ++ (ctStep m o ([], cur) sp).1, (ctStep m o ([], cur) sp).2) := by
  unfold ctStep
  dsimp only
  split_ifs <;> simp

theorem ctRun_chunks (m o : Nat) :
    ∀ (sps : List (List Char)) (chunks : List (List Char)) (cur : List Char),
      ctRun m o sps (chunks, cur) = chunks ++ ctRun m o sps ([], cur) := by
  intro sps
  induction sps with
  | nil =>
      intro chunks cur
      rw [ctRun_nil, ctRun_nil]
      dsimp only
      split_ifs <;> simp
  | cons sp t ih =>
      intro chunks cur
      rw [ctRun_cons, ctRun_cons, ctStep_chunks]
      rw [ih (chunks ++ (ctStep m o ([], cur) sp).1) (ctStep m o ([], cur) sp).2]
      have h2 : ctRun m o t (ctStep m o ([], cur) sp)
          = (ctStep m o ([], cur) sp).1
            ++ ctRun m o t ([], (ctStep m o ([], cur) sp).2) := by
        have h3 : ctStep m o ([], cur) sp
            = ((ctStep m o ([], cur) sp).1, (ctStep m o ([], cur) sp).2) := rfl
        rw [h3, ih]
      rw [h2, List.append_assoc]

theorem ctStep_emit (m o : Nat) (cur sp : List Char)
    (hfit : ¬ cur.length + sp.length + 2 < m) (hc : cur ≠ []) :
    (ctStep m o ([], cur) sp).1 = [strip cur] := by
  unfold ctStep
  dsimp only
  rw [if_neg hfit, if_neg hc]
  split_ifs <;> rfl

theorem ctRun_head_prefix (m o : Nat) (p : List Char) (hp : p ≠ []) :
    ∀ (sps : List (List Char)) (cur r : List Char),
      lstrip cur = p ++ r → nonWs r ≠ [] →
      ∃ next rest, ctRun m o sps ([], cur) = next :: rest
        ∧ next.take p.length = p := by
  intro sps
  induction sps with
  | nil =>
      intro cur r hcur hr
      have hcne : cur ≠ [] := by
        intro hcon
        rw [hcon] at hcur
        exact List.append_ne_nil_of_left_ne_nil hp r hcur.symm
      rw [ctRun_nil]
      dsimp only
      rw [if_neg hcne]
      exact ⟨strip cur, [], rfl, strip_append_take p r cur hcur hr⟩
  | cons sp t ih =>
      intro cur r hcur hr
      have hlne : lstrip cur ≠ [] := by
        rw [hcur]
        exact List.append_ne_nil_of_left_ne_nil hp r
      have hcne : cur ≠ [] := by
        intro hcon
        rw [hcon] at hlne
        exact hlne rfl
      rw [ctRun_cons]
      by_cases hfit : cur.length + sp.length + 2 < m
      · have hstep : ctStep m o ([], cur) sp = ([], cur ++ sp ++ nl2) := by
          unfold ctStep
          dsimp only
          rw [if_pos hfit]
        rw [hstep]
        apply ih (cur ++ sp ++ nl2) (r ++ (sp ++ nl2))
        · rw [List.append_assoc, lstrip_append cur (sp ++ nl2) hlne, hcur,
            List.append_assoc]
        · rw [nonWs_append]
          exact List.append_ne_nil_of_left_ne_nil hr _
      · have hstep : ctStep m o ([], cur) sp
            = ([strip cur], (ctStep m o ([], cur) sp).2) := by
          have h1 := ctStep_emit m o cur sp hfit hcne
          exact Prod.ext h1 rfl
        rw [hstep, ctRun_chunks]
        refine ⟨strip cur, ctRun m o t ([], (ctStep m o ([], cur) sp).2), rfl, ?_⟩
        exact strip_append_take p r cur hcur hr

/-- C5 (amended): when `chunk_text`'s loop emits a passage from a buffer
`cur` longer than `overlap` (with `overlap > 0`), the overlap seed is the
final `overlap` characters of the *buffer* — the emitted passage is the
buffer stripped of surrounding whitespace, so the seed is generally not a
suffix of the passage itself — and, provided the seed contains a
non-whitespace character and the incoming sub-paragraph is non-empty, the
next emitted passage begins with the seed stripped of leading whitespace. -/
theorem chunk_text_overlap_seed (m o : Nat) (sps : List (List Char))
    (sp : List Char) (chunks : List (List Char)) (cur : List Char)
    (ho : 0 < o) (hlen : o < cur.length)
    (hfit : ¬ cur.length + sp.length + 2 < m)
    (hseed : lstrip (takeRight o cur) ≠ [])
    (hsp : nonWs sp ≠ []) :
    ∃ next rest,
      ctRun m o (sp :: sps) (chunks, cur) = chunks ++ strip cur :: next :: rest
      ∧ next.take (lstrip (takeRight o cur)).length = lstrip (takeRight o cur) := by
  have hcne : cur ≠ [] := by
    intro hcon
    rw [hcon] at hlen
    simp at hlen
  have hstep : ctStep m o (chunks, cur) sp
      = (chunks ++ [strip cur], takeRight o cur ++ nl2 ++ sp ++ nl2) := by
    unfold ctStep
    dsimp only
    rw [if_neg hfit, if_neg hcne, if_pos ⟨ho, hlen⟩]
  rw [ctRun_cons, hstep, ctRun_chunks]
  have hseq : lstrip (takeRight o cur ++ nl2 ++ sp ++ nl2)
      = lstrip (takeRight o cur) ++ (nl2 ++ sp ++ nl2) := by
    rw [List.append_assoc, List.append_assoc,
      lstrip_append (takeRight o cur) (nl2 ++ (sp ++ nl2)) hseed]
    simp [List.append_assoc]
  have hrws : nonWs (nl2 ++ sp ++ nl2) ≠ [] := by
    rw [List.append_assoc, nonWs_append, nonWs_nl2, List.nil_append, nonWs_append]
    exact List.append_ne_nil_of_left_ne_nil hsp _
  rcases ctRun_head_prefix m o (lstrip (takeRight o cur)) hseed sps
      (takeRight o cur ++ nl2 ++ sp ++ nl2) (nl2 ++ sp ++ nl2) hseq hrws with
    ⟨next, rest, heq, hpre⟩
  refine ⟨next, rest, ?_, hpre⟩
  rw [heq]
  simp

/-- Witness for the amended C5: buffer `"aaaaaaa\n\n"`, overlap 3, seed
`"a\n\n"`; the passage emitted is `"aaaaaaa"` and the next passage starts
with `lstrip "a\n\n" = "a"`. -/
theorem chunk_text_overlap_seed_witness :
    ∃ next rest,
      ctRun 10 3 ["bbbbbbb".toList] ([], "aaaaaaa\n\n".toList)
        = [] ++ strip ("aaaaaaa\n\n".toList) :: next :: rest
      ∧ next.take (lstrip (takeRight 3 ("aaaaaaa\n\n".toList))).length
        = lstrip (takeRight 3 ("aaaaaaa\n\n".toList)) :=
  chunk_text_overlap_seed 10 3 [] ("bbbbbbb".toList) [] ("aaaaaaa\n\n".toList)
    (by decide) (by decide) (by decide) (by decide) (by decide)

/-- Counterexample to C5 as stated: with `overlap = 3`, the first passage
is `"aaaaaaa"` (length 7 > 3), but the second passage starts with
`"a\n\n"`, not with the final three characters `"aaa"` of the first — the
seed is cut from the unstripped buffer, which still ends in `"\n\n"`. -/
theorem chunk_text_overlap_cex :
    chunk_text ("aaaaaaa\n\nbbbbbbb".toList) 10 3
      = ["aaaaaaa".toList, "a\n\n\n\nbbbbbbb".toList]
    ∧ 3 < ("aaaaaaa".toList).length
    ∧ ("a\n\n\n\nbbbbbbb".toList).take 3 ≠ takeRight 3 ("aaaaaaa".toList) := by
  decide

/-! ## C8: non-whitespace preservation (overlap = 0) -/

theorem nonWs_cons (c : Char) (s : List Char) :
    nonWs (c :: s) = if isSpace c then nonWs s else c :: nonWs s := by
  unfold nonWs
  rw [List.filter_cons]
  cases h : isSpace c <;> simp [h]

theorem nonWs_wsBefore (pend : List Char) (h : ∀ x ∈ pend, isSpace x) :
    nonWs (wsBefore pend) = [] := by
  apply nonWs_eq_nil_of_all_ws
  intro x hx
  exact h x ((List.takeWhile_sublist _).mem hx)

theorem nonWs_wsAfter (pend : List Char) (h : ∀ x ∈ pend, isSpace x) :
    nonWs (wsAfter pend) = [] := by
  apply nonWs_eq_nil_of_all_ws
  intro x hx
  unfold wsAfter at hx
  rw [List.mem_reverse] at hx
  have := (List.takeWhile_sublist _).mem hx
  rw [List.mem_reverse] at this
  exact h x this

theorem splitParasAux_nonWs :
    ∀ (s cur pend : List Char), (∀ x ∈ pend, isSpace x) →
      nonWs (splitParasAux s cur pend).flatten = nonWs cur ++ nonWs s := by
  intro s
  induction s with
  | nil =>
      intro cur pend hpend
      unfold splitParasAux
      by_cases hps : pendSplits pend
      · rw [if_pos hps]
        simp only [List.flatten_cons, List.flatten_nil, List.append_nil]
        rw [nonWs_append, nonWs_append, nonWs_wsBefore pend hpend,
          nonWs_wsAfter pend hpend]
        simp
      · rw [if_neg hps]
        simp only [List.flatten_cons, List.flatten_nil, List.append_nil]
        rw [nonWs_append, nonWs_eq_nil_of_all_ws pend hpend]
        simp
  | cons c rest ih =>
      intro cur pend hpend
      unfold splitParasAux
      by_cases hsc : isSpace c
      · rw [if_pos hsc]
        have hpend2 : ∀ x ∈ pend ++ [c], isSpace x := by
          intro x hx
          rcases List.mem_append.mp hx with h | h
          · exact hpend x h
          · rw [List.mem_singleton.mp h]
            exact hsc
        rw [ih cur (pend ++ [c]) hpend2, nonWs_cons, if_pos hsc]
      · rw [if_neg hsc]
        by_cases hps : pendSplits pend
        · rw [if_pos hps]
          rw [List.flatten_cons, nonWs_append, nonWs_append,
            nonWs_wsBefore pend hpend, ih (wsAfter pend ++ [c]) [] (by simp),
            nonWs_append, nonWs_wsAfter pend hpend, nonWs_cons, if_neg hsc,
            nonWs_cons, if_neg hsc]
          simp
        · rw [if_neg hps]
          rw [ih (cur ++ pend ++ [c]) [] (by simp), nonWs_append, nonWs_append,
            nonWs_eq_nil_of_all_ws pend hpend, nonWs_cons, if_neg hsc,
            nonWs_cons, if_neg hsc]
          simp

theorem splitParas_nonWs (s : List Char) :
    nonWs (splitParas s).flatten = nonWs s := by
  unfold splitParas
  rw [splitParasAux_nonWs s [] [] (by simp)]
  rfl

theorem splitSentsAux_nonWs :
    ∀ (s cur : List Char) (inSep : Bool),
      nonWs (splitSentsAux s cur inSep).flatten = nonWs cur ++ nonWs s := by
  intro s
  induction s with
  | nil =>
      intro cur inSep
      unfold splitSentsAux
      by_cases hsep : inSep = true
      · rw [if_pos hsep]
        simp
      · rw [if_neg hsep]
        simp
  | cons c rest ih =>
      intro cur inSep
      unfold splitSentsAux
      by_cases hsep : inSep = true
      · rw [if_pos hsep]
        by_cases hsc : isSpace c
        · rw [if_pos hsc, ih cur true, nonWs_cons, if_pos hsc]
        · rw [if_neg hsc, List.flatten_cons, nonWs_append, ih [c] false,
            nonWs_cons, if_neg hsc, nonWs_cons, if_neg hsc]
          simp
      · rw [if_neg hsep]
        by_cases htrig : (isSpace c && lastIsSentEnd cur) = true
        · rw [if_pos htrig, ih cur true, nonWs_cons,
            if_pos (Bool.and_elim_left htrig)]
        · rw [if_neg htrig, ih (cur ++ [c]) false, nonWs_append, nonWs_cons,
            nonWs_cons]
          by_cases hsc : isSpace c
          · rw [if_pos hsc, if_pos hsc]
            simp
          · rw [if_neg hsc, if_neg hsc]
            simp

theorem splitSents_nonWs (s : List Char) :
    nonWs (splitSents s).flatten = nonWs s := by
  unfold splitSents
  rw [splitSentsAux_nonWs s [] false]
  rfl

theorem hardSplitF_nonWs (m : Nat) (hm : 1 ≤ m) :
    ∀ (fuel : Nat) (s : List Char), s.length ≤ fuel →
      nonWs (hardSplitF m fuel s).flatten = nonWs s := by
  intro fuel
  induction fuel with
  | zero =>
      intro s hs
      cases s with
      | nil => rfl
      | cons x t => simp at hs
  | succ n ih =>
      intro s hs
      cases s with
      | nil => rfl
      | cons x t =>
          rw [hardSplitF, List.flatten_cons, nonWs_append, nonWs_strip,
            ih ((x :: t).drop m) (by
              rw [List.length_drop]
              simp only [List.length_cons] at hs ⊢
              omega)]
          rw [← nonWs_append, List.take_append_drop]

theorem hardSplit_nonWs (m : Nat) (hm : 1 ≤ m) (s : List Char) :
    nonWs (hardSplit m s).flatten = nonWs s := by
  unfold hardSplit
  exact hardSplitF_nonWs m hm s.length s (le_refl _)

theorem flatten_nonWs_flush (chunks : List (List Char)) (cur : List Char) :
    nonWs (if cur = [] then chunks else chunks ++ [strip cur]).flatten
      = nonWs chunks.flatten ++ nonWs cur := by
  by_cases hc : cur = []
  · rw [if_pos hc, hc]
    simp
  · rw [if_neg hc, List.flatten_append]
    simp [nonWs_append, nonWs_strip]

theorem slpStep_nonWs (m : Nat) (hm : 1 ≤ m) (st : List (List Char) × List Char)
    (sent0 : List Char) :
    nonWs (slpStep m st sent0).1.flatten ++ nonWs (slpStep m st sent0).2
      = nonWs st.1.flatten ++ nonWs st.2 ++ nonWs sent0 := by
  unfold slpStep
  dsimp only
  by_cases hs : strip sent0 = []
  · rw [if_pos hs]
    have h0 := nonWs_eq_nil_of_strip_eq_nil sent0 hs
    simp [h0]
  · rw [if_neg hs]
    by_cases hfit : st.2.length + (strip sent0).length + 1 < m
    · rw [if_pos hfit]
      dsimp only
      by_cases hc : st.2 = []
      · rw [if_pos hc, hc]
        simp [nonWs_strip]
      · rw [if_neg hc]
        have hsp : nonWs [' '] = [] := rfl
        rw [nonWs_append, nonWs_append, hsp, nonWs_strip]
        simp [List.append_assoc]
    · rw [if_neg hfit]
      by_cases hlong : m < (strip sent0).length
      · rw [if_pos hlong]
        dsimp only
        rw [List.flatten_append, nonWs_append, flatten_nonWs_flush,
          hardSplit_nonWs m hm, nonWs_strip]
        simp [List.append_assoc]
      · rw [if_neg hlong]
        dsimp only
        rw [flatten_nonWs_flush, nonWs_strip]

theorem slpFoldl_nonWs (m : Nat) (hm : 1 ≤ m) :
    ∀ (sents : List (List Char)) (st : List (List Char) × List Char),
      nonWs ((sents.foldl (slpStep m) st).1.flatten)
          ++ nonWs (sents.foldl (slpStep m) st).2
        = nonWs st.1.flatten ++ nonWs st.2 ++ nonWs sents.flatten := by
  intro sents
  induction sents with
  | nil =>
      intro st
      simp
  | cons s t ih =>
      intro st
      rw [List.foldl_cons, ih (slpStep m st s), slpStep_nonWs m hm st s,
        List.flatten_cons, nonWs_append]
      simp [List.append_assoc]

theorem split_long_paragraph_nonWs (para0 : List Char) (m : Nat) (hm : 1 ≤ m) :
    nonWs (split_long_paragraph para0 m).flatten = nonWs para0 := by
  unfold split_long_paragraph
  dsimp only
  by_cases hp : strip para0 = []
  · rw [if_pos hp]
    have h0 := nonWs_eq_nil_of_strip_eq_nil para0 hp
    simp [h0]
  · rw [if_neg hp, flatten_nonWs_flush]
    rw [slpFoldl_nonWs m hm (splitSents (strip para0)) ([], []),
      splitSents_nonWs, nonWs_strip]
    simp

theorem subParas_nonWs (m : Nat) (hm : 1 ≤ m) :
    ∀ paragraphs : List (List Char),
      nonWs (subParas m paragraphs).flatten = nonWs paragraphs.flatten := by
  intro paragraphs
  induction paragraphs with
  | nil => rfl
  | cons p t ih =>
      unfold subParas
      rw [List.flatMap_cons, List.flatten_append, nonWs_append]
      have hrest : nonWs ((t.flatMap fun q =>
          if m < q.length then split_long_paragraph q m else [q]).flatten)
          = nonWs t.flatten := ih
      rw [hrest, List.flatten_cons, nonWs_append]
      by_cases hlong : m < p.length
      · rw [if_pos hlong, split_long_paragraph_nonWs p m hm]
      · rw [if_neg hlong]
        simp

theorem ctStep_nonWs (m : Nat) (st : List (List Char) × List Char) (sp : List Char) :
    nonWs (ctStep m 0 st sp).1.flatten ++ nonWs (ctStep m 0 st sp).2
      = nonWs st.1.flatten ++ nonWs st.2 ++ nonWs sp := by
  unfold ctStep
  dsimp only
  by_cases hfit : st.2.length + sp.length + 2 < m
  · rw [if_pos hfit]
    rw [nonWs_append, nonWs_append, nonWs_nl2]
    simp [List.append_assoc]
  · rw [if_neg hfit]
    have hov : ¬ (0 < 0 ∧ 0 < st.2.length) := by simp
    rw [if_neg hov, flatten_nonWs_flush, nonWs_append, nonWs_nl2]
    simp [List.append_assoc]

theorem ctRun_nonWs (m : Nat) :
    ∀ (sps : List (List Char)) (st : List (List Char) × List Char),
      nonWs (ctRun m 0 sps st).flatten
        = nonWs st.1.flatten ++ nonWs st.2 ++ nonWs sps.flatten := by
  intro sps
  induction sps with
  | nil =>
      intro st
      rw [ctRun_nil, flatten_nonWs_flush]
      simp
  | cons sp t ih =>
      intro st
      rw [ctRun_cons, ih (ctStep m 0 st sp), ctStep_nonWs m st sp,
        List.flatten_cons, nonWs_append]
      simp [List.append_assoc]

theorem nonWs_flatten_strip_filter :
    ∀ L : List (List Char),
      nonWs (((L.map strip).filter (fun p => p ≠ [])).flatten) = nonWs L.flatten := by
  intro L
  induction L with
  | nil => rfl
  | cons p t ih =>
      rw [List.map_cons, List.filter_cons]
      by_cases hsp : strip p = []
      · rw [if_neg (by simp [hsp])]
        rw [ih, List.flatten_cons, nonWs_append,
          nonWs_eq_nil_of_strip_eq_nil p hsp]
        simp
      · rw [if_pos (by simp [hsp])]
        rw [List.flatten_cons, nonWs_append, ih, List.flatten_cons,
          nonWs_append, nonWs_strip]

theorem ctParagraphs_nonWs (text : List Char) :
    nonWs (ctParagraphs text).flatten = nonWs text := by
  unfold ctParagraphs
  rw [nonWs_flatten_strip_filter, splitParas_nonWs, nonWs_strip]

/-- C8: with `overlap = 0`, chunking preserves the non-whitespace
character stream: concatenating all emitted passages and deleting
whitespace gives back the input with whitespace deleted — nothing is
dropped, duplicated or reordered. -/
theorem chunk_text_nonWs (text : List Char) (maxChars : Nat) (hm : 0 < maxChars) :
    nonWs (chunk_text text maxChars 0).flatten = nonWs text := by
  unfold chunk_text
  by_cases ht : text = []
  · rw [if_pos ht, ht]
    simp
  · rw [if_neg ht, ctRun_nonWs, subParas_nonWs maxChars hm, ctParagraphs_nonWs]
    simp

/-- Witness for C8 at a concrete input containing sentence punctuation,
paragraph breaks and stray whitespace. -/
theorem chunk_text_nonWs_witness :
    (0 < 5)
    ∧ nonWs (chunk_text ("ab. cd ef.\n\n\ngh  ij".toList) 5 0).flatten
      = nonWs ("ab. cd ef.\n\n\ngh  ij".toList) :=
  ⟨by decide, chunk_text_nonWs ("ab. cd ef.\n\n\ngh  ij".toList) 5 (by decide)⟩
